import Mathlib

/-!
# turing-cli: the transition table and the wizard's validators

A shallow embedding of `main.go`.  The Go map `map[string][]Transition` is an
association list with at most one entry per key; the answers the terminal
prompts return are explicit arguments of the functions that use them.  A panic
of the program is the result `none`; the allocation bound of the Go runtime,
which decides whether `make` panics, is an argument `maxAlloc`.
-/

namespace TuringCli

/-! ## Data model (`main.go` lines 14-29) -/

/-- One transition out of a state: the symbol read and the `[to, write, direction]` triple. -/
structure Transition where
  Result : List String
  On : String
deriving DecidableEq, Repr

/-- One element of the serialized `delta` array. -/
structure Delta where
  From : String
  To : List Transition
deriving DecidableEq, Repr

/-- The serialized machine. -/
structure TuringMachine where
  Start : String
  Accept : String
  Reject : String
  Delta : List Delta
deriving DecidableEq, Repr

/-- The Go value `map[string][]Transition`: entries in some iteration order. -/
abbrev FromToMap := List (String × List Transition)

/-- The Go lookup `v, ok := m[k]`: `none` when the key is absent. -/
def mapGet : FromToMap → String → Option (List Transition)
  | [], _ => none
  | (k', v) :: rest, k => if k' = k then some v else mapGet rest k

/-- The Go assignment `m[k] = v`: overwrite the entry of `k`, or add one. -/
def mapSet : FromToMap → String → List Transition → FromToMap
  | [], k, v => [(k, v)]
  | (k', v') :: rest, k, v => if k' = k then (k', v) :: rest else (k', v') :: mapSet rest k v

/-- The keys a `range` over the map visits. -/
def mapKeys (m : FromToMap) : List String := m.map Prod.fst

/-- The Go expression `m[k]` without `ok`: the nil slice when the key is absent. -/
def mapIndex (m : FromToMap) (k : String) : List Transition := (mapGet m k).getD []

/-! ## `removeIdx` (lines 397-401) -/

/-- The generic `removeIdx`: `s[:idx]` followed by `s[idx+1:]`.  The slice expression
`s[idx+1:]` panics unless `0 ≤ idx < len(s)`, which is the `none` result. -/
def removeIdx {α : Type} (s : List α) (idx : Int) : Option (List α) :=
  if 0 ≤ idx ∧ idx < s.length then
    some (s.take idx.toNat ++ s.drop (idx.toNat + 1))
  else none

/-! ## `insertTransition` (lines 301-318) -/

/-- The loop of lines 310-315: is there a transition of the list whose `On` is the symbol? -/
def hasTransitionOn : List Transition → String → Bool
  | [], _ => false
  | t :: rest, onSym => if t.On = onSym then true else hasTransitionOn rest onSym

/-- The function `insertTransition`: the table after the call. -/
def insertTransition (fromToMap : FromToMap) (fromState toState onSym write direction : String) :
    FromToMap :=
  let m1 := match mapGet fromToMap fromState with
    | none => mapSet fromToMap fromState []
    | some _ => fromToMap
  let existingTransitions := mapIndex m1 fromState
  if hasTransitionOn existingTransitions onSym then m1
  else mapSet m1 fromState
    (existingTransitions ++ [{ Result := [toState, write, direction], On := onSym }])

/-! ## `promptRemove` (lines 340-369) -/

/-- The removal step of `promptRemove` (lines 355-367), given the two answers of the
prompts: the state picked and the index of the transition picked. -/
def promptRemove (fromToMap : FromToMap) (removeStateResult : String)
    (removeTransitionIdx : Int) : Option FromToMap :=
  match removeIdx (mapIndex fromToMap removeStateResult) removeTransitionIdx with
  | none => none
  | some newTransitions => some (mapSet fromToMap removeStateResult newTransitions)

/-- The candidate states `promptRemove` offers (lines 341-344). -/
def removeCandidates (fromToMap : FromToMap) : List String := mapKeys fromToMap

/-! ## `promptOptions` (lines 211-215) -/

/-- The menu `promptOptions` builds. -/
def promptOptionsMenu (fromToMap : FromToMap) : List String :=
  let options := ["Add a transition."]
  let options := if fromToMap.length > 0 then options ++ ["Remove a transition."] else options
  options ++ ["Finish."]

/-! ## Building `delta` (lines 74-76) -/

/-- The loop of `main` that fills `machine.Delta` from the table, one entry per key, in the
order the `range` visits the keys. -/
def buildDelta (machine : TuringMachine) (fromToMap : FromToMap) : TuringMachine :=
  fromToMap.foldl
    (fun mach entry => { mach with Delta := mach.Delta ++ [{ From := entry.1, To := entry.2 }] })
    machine

/-! ## The transition loop of `main` (lines 45-72) -/

/-- What the user picks in one round of the loop, with the answers to the follow-up prompts. -/
inductive Choice where
  | add (fromState toState onSym write direction : String)
  | remove (removeStateResult : String) (removeTransitionIdx : Int)
deriving DecidableEq, Repr

/-- One round of the loop.  The state of a removal is one of the candidates offered. -/
def loopStep (fromToMap : FromToMap) : Choice → Option FromToMap
  | .add fromState toState onSym write direction =>
      some (insertTransition fromToMap fromState toState onSym write direction)
  | .remove removeStateResult removeTransitionIdx =>
      if removeStateResult ∈ removeCandidates fromToMap then
        promptRemove fromToMap removeStateResult removeTransitionIdx
      else none

/-- The loop run on a sequence of choices, from a given table. -/
def runLoop : FromToMap → List Choice → Option FromToMap
  | fromToMap, [] => some fromToMap
  | fromToMap, c :: cs =>
      match loopStep fromToMap c with
      | none => none
      | some next => runLoop next cs

/-- A table the loop can produce from the empty map of line 44. -/
def Reachable (fromToMap : FromToMap) : Prop :=
  ∃ choices : List Choice, runLoop [] choices = some fromToMap

/-- The `(fromState, onSymbol)` pairs of all the transitions in the table. -/
def transitionKeys (fromToMap : FromToMap) : List (String × String) :=
  fromToMap.flatMap (fun entry => entry.2.map (fun tr => (entry.1, tr.On)))

/-- A table with one entry per key in which no list has two transitions on one symbol. -/
def TableInv (fromToMap : FromToMap) : Prop :=
  (mapKeys fromToMap).Nodup ∧
    ∀ k ts, mapGet fromToMap k = some ts → (ts.map Transition.On).Nodup

/-- A sample transition on symbol 0: `∂(_, 0) = (1, 0, R)`. -/
def sampleOnZero : Transition := { Result := ["1", "0", "R"], On := "0" }

/-- A sample transition on symbol 1: `∂(_, 1) = (1, 1, R)`. -/
def sampleOnOne : Transition := { Result := ["1", "1", "R"], On := "1" }

/-! ## Go library functions the validators call

`strconv.ParseUint`, `strconv.FormatUint`, `strings.Contains` and `strings.Split` belong to
the Go standard library.  The definitions below follow the library for the arguments the
program passes (base 10, 64 bits, the empty separator).  A Go string is a byte sequence; on
valid UTF-8 text the byte-level tests used here agree with the character-level ones. -/

deriving instance DecidableEq for Except

/-- The two errors of `strconv.ParseUint`. -/
inductive NumError where
  | ErrSyntax
  | ErrRange
deriving DecidableEq, Repr

/-- The largest `uint64`. -/
def maxUint64 : Nat := 2 ^ 64 - 1

/-- The digit value `strconv.ParseUint` gives a byte: `c - '0'` for a decimal digit,
`lower(c) - 'a' + 10` for an ASCII letter, nothing otherwise.  A character outside ASCII is a
run of bytes all above `'z'`, so it has no digit value either. -/
def digitValue (c : Char) : Option Nat :=
  if 48 ≤ c.toNat ∧ c.toNat ≤ 57 then some (c.toNat - 48)
  else if c.toNat < 128 ∧ 97 ≤ (c.toNat ||| 32) ∧ (c.toNat ||| 32) ≤ 122 then
    some ((c.toNat ||| 32) - 97 + 10)
  else none

/-- The digit loop of `strconv.ParseUint(s, 10, 64)` on `uint64` arithmetic, with
`cutoff = maxUint64/10 + 1` and `maxVal = maxUint64`. -/
def parseUintLoop : List Char → Nat → Except NumError Nat
  | [], n => .ok n
  | c :: cs, n =>
      match digitValue c with
      | none => .error .ErrSyntax
      | some d =>
          if d ≥ 10 then .error .ErrSyntax
          else if n ≥ maxUint64 / 10 + 1 then .error .ErrRange
          else
            let n10 := (n * 10) % 2 ^ 64
            let n1 := (n10 + d) % 2 ^ 64
            if n1 < n10 ∨ n1 > maxUint64 then .error .ErrRange
            else parseUintLoop cs n1

/-- The call `strconv.ParseUint(s, 10, 64)`. -/
def ParseUint (s : String) : Except NumError Nat :=
  if s = "" then .error .ErrSyntax else parseUintLoop s.data 0

/-- The digits of `strconv.FormatUint(i, 10)`, least significant produced first. -/
def formatUintDigits : Nat → Nat → List Char → List Char
  | 0, _, acc => acc
  | fuel + 1, n, acc =>
      if n < 10 then Char.ofNat (48 + n) :: acc
      else formatUintDigits fuel (n / 10) (Char.ofNat (48 + n % 10) :: acc)

/-- The call `strconv.FormatUint(i, 10)`: a `uint64` has at most 20 decimal digits. -/
def FormatUint (i : Nat) : String := String.mk (formatUintDigits 20 i [])

/-- Does the first list start with the second? -/
def hasPrefixChars : List Char → List Char → Bool
  | _, [] => true
  | [], _ :: _ => false
  | c :: cs, d :: ds => c = d && hasPrefixChars cs ds

/-- Does the second list occur in the first as a contiguous run? -/
def containsChars : List Char → List Char → Bool
  | [], sub => hasPrefixChars [] sub
  | c :: cs, sub => hasPrefixChars (c :: cs) sub || containsChars cs sub

/-- The call `strings.Contains(s, substr)`. -/
def stringsContains (s substr : String) : Bool := containsChars s.data substr.data

/-- The call `strings.Split(s, "")`: the string cut into its characters. -/
def stringsSplitEmpty (s : String) : List String := s.data.map String.singleton

/-! ## `promptState` (lines 96-129) -/

/-- The validator `statesValidate`: `.ok ()` stands for the `nil` error. -/
def statesValidate (input : String) : Except String Unit :=
  match ParseUint input with
  | .error _ => .error "Invalid positive integer."
  | .ok number => if number ≤ 1 then .error "Input must be >=2." else .ok ()

/-- The conversion `int(n)` of a `uint64` where `int` has 64 bits: two's complement. -/
def uint64ToInt (n : Nat) : Int := if n < 2 ^ 63 then (n : Int) else (n : Int) - 2 ^ 64

/-- The conversion `uintptr(x)` of an `int` where pointers have 64 bits. -/
def intToUintptr (x : Int) : Nat := (x % 2 ^ 64).toNat

/-- The bound `maxAlloc` of the Go runtime on linux/amd64, in bytes. -/
def maxAllocLinuxAmd64 : Nat := 2 ^ 48

/-- The checks of the runtime function `makeslice(et, len, cap)`, which `make` calls: the
byte count `et.size * uintptr(cap)` must not overflow a `uintptr` nor exceed `maxAlloc`, and
`0 ≤ len ≤ cap`.  The result `false` is the panic `makeslice: len out of range` (or
`cap out of range`).  The bound `maxAlloc` is a constant of the runtime that depends on the
platform, so it is an argument here. -/
def makesliceOk (maxAlloc etSize : Nat) (len cap : Int) : Bool :=
  let overflow : Bool := decide (etSize * intToUintptr cap > 2 ^ 64 - 1)
  let mem : Nat := (etSize * intToUintptr cap) % 2 ^ 64
  !(overflow || decide (mem > maxAlloc) || decide (len < 0) || decide (len > cap))

/-- Line 123, `make([]string, nStates, nStates)` with a `uint64` length on a 64-bit platform,
where a string value takes 16 bytes: `nStates` empty strings, or `none` for the panic. -/
def makeStates (maxAlloc nStates : Nat) : Option (List String) :=
  if makesliceOk maxAlloc 16 (uint64ToInt nStates) (uint64ToInt nStates) then
    some (List.replicate nStates "")
  else none

/-- The loop of lines 124-126: the slice filled index by index. -/
def fillStates (states : List String) (nStates : Nat) : List String :=
  (List.range nStates).foldl (fun states i => states.set i (FormatUint i)) states

/-- The function `promptState` on the text the prompt returns; the prompt returns
only a text its validator accepts.  The result `none` is a panic of the function. -/
def promptState (maxAlloc : Nat) (stateResult : String) : Option (List String) :=
  match statesValidate stateResult with
  | .error _ => none
  | .ok _ =>
      match ParseUint stateResult with
      | .error _ => none
      | .ok nStates =>
          match makeStates maxAlloc nStates with
          | none => none
          | some states => some (fillStates states nStates)

/-! ## `promptAccept` and `promptReject` (lines 145-173) -/

/-- The function `promptAccept`: the index and the text of the item picked. -/
def promptAccept (states : List String) (pick : Nat) : Option (Int × String) :=
  match states[pick]? with
  | none => none
  | some acceptResult => some ((pick : Int), acceptResult)

/-- The function `promptReject`: the item picked among the states without the accept state. -/
def promptReject (states : List String) (acceptIdx : Int) (pick : Nat) : Option String :=
  match removeIdx states acceptIdx with
  | none => none
  | some stateStringsMinusAccept => stateStringsMinusAccept[pick]?

/-! ## `promptTape` (lines 175-200) -/

/-- The validator `tapeValidate`: `.ok ()` stands for the `nil` error. -/
def tapeValidate (input : String) : Except String Unit :=
  if input.utf8ByteSize = 0 then .error "Input should be nonempty."
  else if stringsContains input " " then .error "Input should contain no spaces."
  else if stringsContains input "_" then .error "Input should contain no underscores."
  else .ok ()

/-- The function `promptTape` on the text the prompt returns. -/
def promptTape (tapeResult : String) : Option (List String) :=
  match tapeValidate tapeResult with
  | .error _ => none
  | .ok _ => some (stringsSplitEmpty tapeResult)

/-! ## What the specification says an input denotes -/

/-- The ten decimal digit characters. -/
def decimalDigits : List Char := ['0', '1', '2', '3', '4', '5', '6', '7', '8', '9']

/-- The number a run of decimal digits denotes, read from the left on top of `acc`. -/
def decimalValue : List Char → Nat → Nat
  | [], acc => acc
  | c :: cs, acc => decimalValue cs (10 * acc + (c.toNat - 48))

/-- The specification's reading of an input as an unsigned decimal 64-bit integer: a
nonempty run of decimal digits, with no sign, whose value fits in 64 bits. -/
def denotesUint64 (input : String) (n : Nat) : Prop :=
  input ≠ "" ∧ (∀ c ∈ input.data, c ∈ decimalDigits) ∧ decimalValue input.data 0 = n ∧ n < 2 ^ 64

/-! ## Facts about the map operations -/

theorem mapGet_mapSet_same (m : FromToMap) (k : String) (v : List Transition) :
    mapGet (mapSet m k v) k = some v := by
  induction m with
  | nil => simp [mapSet, mapGet]
  | cons e rest ih =>
      obtain ⟨k', v'⟩ := e
      by_cases h : k' = k
      · simp [mapSet, mapGet, h]
      · simp [mapSet, mapGet, h, ih]

theorem mapGet_mapSet_other (m : FromToMap) (k k2 : String) (v : List Transition)
    (hne : k2 ≠ k) : mapGet (mapSet m k v) k2 = mapGet m k2 := by
  induction m with
  | nil =>
      have : ¬ k = k2 := fun h => hne h.symm
      simp [mapSet, mapGet, this]
  | cons e rest ih =>
      obtain ⟨k', v'⟩ := e
      by_cases h : k' = k
      · subst h
        have : ¬ k' = k2 := fun h => hne h.symm
        simp [mapSet, mapGet, this]
      · by_cases h2 : k' = k2
        · subst h2
          simp [mapSet, mapGet, h]
        · simp [mapSet, mapGet, h, h2, ih]

theorem mapGet_isSome_iff (m : FromToMap) (k : String) :
    (∃ v, mapGet m k = some v) ↔ k ∈ mapKeys m := by
  induction m with
  | nil => simp [mapGet, mapKeys]
  | cons e rest ih =>
      obtain ⟨k', v'⟩ := e
      by_cases h : k' = k
      · simp [mapGet, mapKeys, h]
      · have h' : ¬ k = k' := fun e => h e.symm
        simp only [mapGet, h, if_false, ih, mapKeys, List.map_cons, List.mem_cons, h', false_or]

theorem mapGet_eq_none_iff (m : FromToMap) (k : String) :
    mapGet m k = none ↔ k ∉ mapKeys m := by
  rw [← mapGet_isSome_iff]
  cases mapGet m k <;> simp

theorem mapKeys_mapSet_of_mem (m : FromToMap) (k : String) (v : List Transition)
    (hk : k ∈ mapKeys m) : mapKeys (mapSet m k v) = mapKeys m := by
  induction m with
  | nil => simp [mapKeys] at hk
  | cons e rest ih =>
      obtain ⟨k', v'⟩ := e
      by_cases h : k' = k
      · simp [mapSet, mapKeys, h]
      · have h' : ¬ k = k' := fun e => h e.symm
        have hk' : k ∈ mapKeys rest := by
          simpa [mapKeys, h'] using hk
        have := ih hk'
        simp only [mapKeys] at this
        simp [mapSet, mapKeys, h, this]

theorem mapKeys_mapSet_of_not_mem (m : FromToMap) (k : String) (v : List Transition)
    (hk : k ∉ mapKeys m) : mapKeys (mapSet m k v) = mapKeys m ++ [k] := by
  induction m with
  | nil => simp [mapSet, mapKeys]
  | cons e rest ih =>
      obtain ⟨k', v'⟩ := e
      have hk2 : ¬ k = k' ∧ k ∉ mapKeys rest := by
        simpa [mapKeys, not_or] using hk
      have h : ¬ k' = k := fun e => hk2.1 e.symm
      have := ih hk2.2
      simp only [mapKeys] at this
      simp [mapSet, mapKeys, h, this]

theorem mapGet_of_mem (m : FromToMap) (e : String × List Transition)
    (hnd : (mapKeys m).Nodup) (he : e ∈ m) : mapGet m e.1 = some e.2 := by
  induction m with
  | nil => cases he
  | cons e0 rest ih =>
      obtain ⟨k', v'⟩ := e0
      simp only [mapKeys, List.map_cons, List.nodup_cons] at hnd
      rcases List.mem_cons.mp he with he | he
      · subst he
        simp [mapGet]
      · have hne : ¬ k' = e.1 := by
          intro hk
          exact hnd.1 (hk ▸ List.mem_map_of_mem Prod.fst he)
        simp only [mapGet, hne, if_false]
        exact ih hnd.2 he

theorem mem_of_mapGet (m : FromToMap) (k : String) (v : List Transition)
    (h : mapGet m k = some v) : (k, v) ∈ m := by
  induction m with
  | nil => cases h
  | cons e0 rest ih =>
      obtain ⟨k', v'⟩ := e0
      by_cases hk : k' = k
      · subst hk
        simp only [mapGet, if_true, Option.some.injEq] at h
        subst h
        exact List.mem_cons_self _ _
      · simp only [mapGet, hk, if_false] at h
        exact List.mem_cons_of_mem _ (ih h)

theorem hasTransitionOn_iff (ts : List Transition) (onSym : String) :
    hasTransitionOn ts onSym = true ↔ ∃ tr ∈ ts, tr.On = onSym := by
  induction ts with
  | nil => simp [hasTransitionOn]
  | cons t rest ih =>
      by_cases h : t.On = onSym
      · simp [hasTransitionOn, h]
      · simp [hasTransitionOn, h, ih]

theorem removeIdx_eq_eraseIdx {α : Type} (s : List α) (i : Nat) (h : i < s.length) :
    removeIdx s (i : Int) = some (s.eraseIdx i) := by
  have h1 : (0 : Int) ≤ (i : Int) ∧ (i : Int) < (s.length : Int) :=
    ⟨Int.ofNat_nonneg i, by exact_mod_cast h⟩
  simp only [removeIdx, h1, and_self, if_true, Int.toNat_ofNat, List.eraseIdx_eq_take_drop_succ]

theorem removeIdx_eq_some {α : Type} (s r : List α) (idx : Int) (h : removeIdx s idx = some r) :
    ∃ i : Nat, idx = (i : Int) ∧ i < s.length ∧ r = s.eraseIdx i := by
  unfold removeIdx at h
  split at h
  · rename_i hc
    refine ⟨idx.toNat, (Int.toNat_of_nonneg hc.1).symm, ?_, ?_⟩
    · have := hc.2
      omega
    · simp only [Option.some.injEq] at h
      rw [← h, List.eraseIdx_eq_take_drop_succ]
  · cases h

theorem not_mem_eraseIdx_of_nodup {α : Type} [DecidableEq α] (l : List α) (hnd : l.Nodup)
    (i : Nat) (hi : i < l.length) : l.get ⟨i, hi⟩ ∉ l.eraseIdx i := by
  have h := hnd.erase_getElem i hi
  rw [← h, List.get_eq_getElem, hnd.mem_erase_iff]
  exact fun hc => hc.1 rfl

theorem on_ne_of_mem_eraseIdx (ts : List Transition) (i : Nat) (hi : i < ts.length)
    (hnd : (ts.map Transition.On).Nodup) (tr : Transition) (htr : tr ∈ ts.eraseIdx i) :
    tr.On ≠ (ts.get ⟨i, hi⟩).On := by
  intro hc
  have hi' : i < (ts.map Transition.On).length := by simpa using hi
  have h := not_mem_eraseIdx_of_nodup (ts.map Transition.On) hnd i hi'
  apply h
  have hmap : (ts.map Transition.On).eraseIdx i = (ts.eraseIdx i).map Transition.On := by
    clear h hc htr hnd hi'
    induction ts generalizing i with
    | nil => simp
    | cons a rest ih =>
        cases i with
        | zero => simp
        | succ j =>
            have hj : j < rest.length := by simpa using hi
            simp [ih j hj]
  rw [hmap]
  have hget : (ts.map Transition.On).get ⟨i, hi'⟩ = (ts.get ⟨i, hi⟩).On := by simp
  rw [hget, ← hc]
  exact List.mem_map_of_mem _ htr

theorem insertTransition_of_duplicate (fromToMap : FromToMap)
    (fromState toState onSym write direction : String)
    (hhas : hasTransitionOn (mapIndex fromToMap fromState) onSym = true) :
    insertTransition fromToMap fromState toState onSym write direction = fromToMap := by
  cases hget : mapGet fromToMap fromState with
  | none => simp [mapIndex, hget, hasTransitionOn] at hhas
  | some ts =>
      simp only [mapIndex, hget, Option.getD_some] at hhas
      simp [insertTransition, hget, mapIndex, hhas]

theorem insertTransition_fresh (fromToMap : FromToMap)
    (fromState toState onSym write direction : String)
    (hnew : ∀ tr ∈ mapIndex fromToMap fromState, tr.On ≠ onSym) :
    mapGet (insertTransition fromToMap fromState toState onSym write direction) fromState
        = some (mapIndex fromToMap fromState
            ++ [{ Result := [toState, write, direction], On := onSym }])
      ∧ (∀ k, k ≠ fromState →
          mapGet (insertTransition fromToMap fromState toState onSym write direction) k
            = mapGet fromToMap k)
      ∧ mapKeys (insertTransition fromToMap fromState toState onSym write direction)
          = (if fromState ∈ mapKeys fromToMap then mapKeys fromToMap
             else mapKeys fromToMap ++ [fromState]) := by
  have hhas : hasTransitionOn (mapIndex fromToMap fromState) onSym = false := by
    cases hb : hasTransitionOn (mapIndex fromToMap fromState) onSym with
    | false => rfl
    | true =>
        obtain ⟨tr, htr, hon⟩ := (hasTransitionOn_iff _ _).1 hb
        exact absurd hon (hnew tr htr)
  cases hget : mapGet fromToMap fromState with
  | none =>
      have hidx : mapIndex fromToMap fromState = [] := by simp [mapIndex, hget]
      have hnot : fromState ∉ mapKeys fromToMap := (mapGet_eq_none_iff _ _).1 hget
      have hin : fromState ∈ mapKeys (mapSet fromToMap fromState []) := by
        rw [mapKeys_mapSet_of_not_mem _ _ _ hnot]; simp
      have hres : insertTransition fromToMap fromState toState onSym write direction
          = mapSet (mapSet fromToMap fromState []) fromState
              [{ Result := [toState, write, direction], On := onSym }] := by
        simp [insertTransition, hget, mapIndex, mapGet_mapSet_same, hasTransitionOn]
      rw [hres, hidx]
      refine ⟨by simp [mapGet_mapSet_same], ?_, ?_⟩
      · intro k hk
        rw [mapGet_mapSet_other _ _ _ _ hk, mapGet_mapSet_other _ _ _ _ hk]
      · rw [mapKeys_mapSet_of_mem _ _ _ hin, mapKeys_mapSet_of_not_mem _ _ _ hnot]
        simp [hnot]
  | some ts =>
      have hidx : mapIndex fromToMap fromState = ts := by simp [mapIndex, hget]
      have hin : fromState ∈ mapKeys fromToMap := (mapGet_isSome_iff _ _).1 ⟨ts, hget⟩
      rw [hidx] at hhas
      have hres : insertTransition fromToMap fromState toState onSym write direction
          = mapSet fromToMap fromState
              (ts ++ [{ Result := [toState, write, direction], On := onSym }]) := by
        simp [insertTransition, hget, mapIndex, hhas]
      rw [hres, hidx]
      refine ⟨mapGet_mapSet_same _ _ _, ?_, ?_⟩
      · intro k hk
        rw [mapGet_mapSet_other _ _ _ _ hk]
      · rw [mapKeys_mapSet_of_mem _ _ _ hin]
        simp [hin]


theorem promptRemove_eq_some (fromToMap next : FromToMap) (removeStateResult : String)
    (idx : Int) (h : promptRemove fromToMap removeStateResult idx = some next) :
    ∃ i : Nat, idx = (i : Int) ∧ i < (mapIndex fromToMap removeStateResult).length ∧
      next = mapSet fromToMap removeStateResult
        ((mapIndex fromToMap removeStateResult).eraseIdx i) := by
  unfold promptRemove at h
  cases hr : removeIdx (mapIndex fromToMap removeStateResult) idx with
  | none => simp [hr] at h
  | some r =>
      obtain ⟨i, hi, hlt, hr'⟩ := removeIdx_eq_some _ _ _ hr
      simp only [hr, Option.some.injEq] at h
      exact ⟨i, hi, hlt, by rw [← h, hr']⟩

theorem tableInv_insertTransition (fromToMap : FromToMap)
    (fromState toState onSym write direction : String) (hinv : TableInv fromToMap) :
    TableInv (insertTransition fromToMap fromState toState onSym write direction) := by
  cases hb : hasTransitionOn (mapIndex fromToMap fromState) onSym with
  | true => rw [insertTransition_of_duplicate _ _ _ _ _ _ hb]; exact hinv
  | false =>
      have hnew : ∀ tr ∈ mapIndex fromToMap fromState, tr.On ≠ onSym := by
        intro tr htr hon
        have := (hasTransitionOn_iff _ _).2 ⟨tr, htr, hon⟩
        rw [hb] at this
        cases this
      obtain ⟨hsame, hother, hkeys⟩ :=
        insertTransition_fresh fromToMap fromState toState onSym write direction hnew
      refine ⟨?_, ?_⟩
      · rw [hkeys]
        split
        · exact hinv.1
        · rename_i hnot
          exact List.Nodup.append hinv.1 (List.nodup_singleton _)
            (by simpa [List.disjoint_singleton] using hnot)
      · intro k ts hk
        by_cases hkf : k = fromState
        · subst hkf
          rw [hsame] at hk
          simp only [Option.some.injEq] at hk
          subst hk
          have hold : ((mapIndex fromToMap k).map Transition.On).Nodup := by
            cases hget : mapGet fromToMap k with
            | none => simp [mapIndex, hget]
            | some old =>
                simpa [mapIndex, hget] using hinv.2 k old hget
          rw [List.map_append, List.map_singleton]
          refine List.Nodup.append hold (List.nodup_singleton _) ?_
          rw [List.disjoint_singleton]
          intro hmem
          obtain ⟨tr, htr, hon⟩ := List.mem_map.1 hmem
          exact hnew tr htr hon
        · rw [hother k hkf] at hk
          exact hinv.2 k ts hk

theorem tableInv_promptRemove (fromToMap next : FromToMap) (removeStateResult : String)
    (idx : Int) (hinv : TableInv fromToMap)
    (h : promptRemove fromToMap removeStateResult idx = some next) : TableInv next := by
  obtain ⟨i, -, hlt, hnext⟩ := promptRemove_eq_some _ _ _ _ h
  subst hnext
  have hin : removeStateResult ∈ mapKeys fromToMap := by
    by_contra hnot
    have hnone := (mapGet_eq_none_iff _ _).2 hnot
    simp [mapIndex, hnone] at hlt
  refine ⟨by rw [mapKeys_mapSet_of_mem _ _ _ hin]; exact hinv.1, ?_⟩
  intro k ts hk
  by_cases hkf : k = removeStateResult
  · subst hkf
    rw [mapGet_mapSet_same] at hk
    simp only [Option.some.injEq] at hk
    subst hk
    obtain ⟨old, hold⟩ := (mapGet_isSome_iff _ _).2 hin
    have hnd := hinv.2 k old hold
    have hidx : mapIndex fromToMap k = old := by simp [mapIndex, hold]
    rw [hidx]
    exact hnd.sublist ((List.eraseIdx_sublist old i).map Transition.On)
  · rw [mapGet_mapSet_other _ _ _ _ hkf] at hk
    exact hinv.2 k ts hk

theorem tableInv_runLoop (choices : List Choice) (fromToMap next : FromToMap)
    (hinv : TableInv fromToMap) (h : runLoop fromToMap choices = some next) :
    TableInv next := by
  induction choices generalizing fromToMap with
  | nil =>
      simp only [runLoop, Option.some.injEq] at h
      exact h ▸ hinv
  | cons c cs ih =>
      simp only [runLoop] at h
      cases hstep : loopStep fromToMap c with
      | none => simp [hstep] at h
      | some mid =>
          simp only [hstep] at h
          refine ih mid ?_ h
          cases c with
          | add f t o w d =>
              simp only [loopStep, Option.some.injEq] at hstep
              exact hstep ▸ tableInv_insertTransition _ _ _ _ _ _ hinv
          | remove st idx =>
              simp only [loopStep] at hstep
              split at hstep
              · exact tableInv_promptRemove _ _ _ _ hinv hstep
              · cases hstep

theorem transitionKeys_nodup (fromToMap : FromToMap) (hinv : TableInv fromToMap) :
    (transitionKeys fromToMap).Nodup := by
  unfold transitionKeys
  rw [List.nodup_flatMap]
  constructor
  · intro e he
    have hget := mapGet_of_mem fromToMap e hinv.1 he
    have hnd := hinv.2 e.1 e.2 hget
    have : e.2.map (fun tr => (e.1, tr.On)) = (e.2.map Transition.On).map (fun o => (e.1, o)) := by
      simp [List.map_map, Function.comp]
    rw [this]
    exact hnd.map (fun a b hab => (Prod.mk.injEq _ _ _ _ ▸ hab).2)
  · have hk := hinv.1
    unfold mapKeys at hk
    rw [List.Nodup, List.pairwise_map] at hk
    refine hk.imp ?_
    intro a b hab
    simp only [Function.onFun]
    rw [List.disjoint_left]
    intro x hxa hxb
    obtain ⟨ta, -, hta⟩ := List.mem_map.1 hxa
    obtain ⟨tb, -, htb⟩ := List.mem_map.1 hxb
    apply hab
    have := hta.trans htb.symm
    exact (Prod.mk.injEq _ _ _ _ ▸ this).1

/-! ## Facts about `ParseUint` and `FormatUint` -/

theorem toNat_ofNat_digit (d : Nat) (h : d < 10) : (Char.ofNat (48 + d)).toNat = 48 + d := by
  interval_cases d <;> rfl

theorem mem_decimalDigits_iff (c : Char) :
    c ∈ decimalDigits ↔ 48 ≤ c.toNat ∧ c.toNat ≤ 57 := by
  constructor
  · intro h
    simp only [decimalDigits, List.mem_cons, List.mem_singleton, List.not_mem_nil, or_false] at h
    rcases h with h | h | h | h | h | h | h | h | h | h <;> subst h <;> decide
  · rintro ⟨h1, h2⟩
    have hc : c = Char.ofNat c.toNat := (Char.ofNat_toNat c).symm
    generalize c.toNat = n at *
    subst hc
    interval_cases n <;> decide

theorem digitValue_of_digit (c : Char) (h : c ∈ decimalDigits) :
    digitValue c = some (c.toNat - 48) ∧ c.toNat - 48 < 10 := by
  have h' := (mem_decimalDigits_iff c).1 h
  refine ⟨by simp [digitValue, h'], by omega⟩

theorem digitValue_of_not_digit (c : Char) (h : c ∉ decimalDigits) :
    digitValue c = none ∨ ∃ d, digitValue c = some d ∧ 10 ≤ d := by
  have h' : ¬ (48 ≤ c.toNat ∧ c.toNat ≤ 57) := fun hc => h ((mem_decimalDigits_iff c).2 hc)
  unfold digitValue
  rw [if_neg h']
  split
  · exact Or.inr ⟨_, rfl, by omega⟩
  · exact Or.inl rfl

theorem le_decimalValue (cs : List Char) (acc : Nat) : acc ≤ decimalValue cs acc := by
  induction cs generalizing acc with
  | nil => simp [decimalValue]
  | cons c cs ih =>
      have := ih (10 * acc + (c.toNat - 48))
      simp only [decimalValue]
      omega

theorem parseUintLoop_eq_ok_iff (cs : List Char) (acc n : Nat) (hacc : acc < 2 ^ 64) :
    parseUintLoop cs acc = .ok n ↔
      (∀ c ∈ cs, c ∈ decimalDigits) ∧ decimalValue cs acc = n ∧ n < 2 ^ 64 := by
  induction cs generalizing acc with
  | nil =>
      simp only [parseUintLoop, Except.ok.injEq, List.not_mem_nil, false_implies, implies_true,
        decimalValue, true_and]
      constructor
      · intro h; exact ⟨h, h ▸ hacc⟩
      · intro h; exact h.1
  | cons c cs ih =>
      by_cases hc : c ∈ decimalDigits
      · obtain ⟨hd, hlt⟩ := digitValue_of_digit c hc
        have hge := le_decimalValue cs (10 * acc + (c.toNat - 48))
        simp only [parseUintLoop, hd, maxUint64, decimalValue, List.mem_cons, forall_eq_or_imp,
          hc, true_and]
        norm_num only at hacc ⊢
        rw [if_neg (by omega)]
        by_cases hcut : 1844674407370955162 ≤ acc
        · rw [if_pos hcut]
          constructor
          · intro h; cases h
          · intro h; omega
        · rw [if_neg hcut]
          have h10 : acc * 10 % 18446744073709551616 = acc * 10 := Nat.mod_eq_of_lt (by omega)
          rw [h10]
          by_cases hov : acc * 10 + (c.toNat - 48) < 18446744073709551616
          · have h1 : (acc * 10 + (c.toNat - 48)) % 18446744073709551616
                = acc * 10 + (c.toNat - 48) := Nat.mod_eq_of_lt hov
            rw [h1, if_neg (by omega)]
            have := ih (acc * 10 + (c.toNat - 48)) (by norm_num only; exact hov)
            norm_num only at this
            rw [this, Nat.mul_comm acc 10]
          · have h1 : (acc * 10 + (c.toNat - 48)) % 18446744073709551616
                = acc * 10 + (c.toNat - 48) - 18446744073709551616 := by omega
            rw [h1, if_pos (by omega)]
            constructor
            · intro h; cases h
            · intro h; omega
      · have hfalse : ¬ ((∀ c' ∈ c :: cs, c' ∈ decimalDigits) ∧
            decimalValue (c :: cs) acc = n ∧ n < 2 ^ 64) := by
          intro h
          exact hc (h.1 c (List.mem_cons_self _ _))
        rcases digitValue_of_not_digit c hc with hd | ⟨d, hd, hge⟩
        · simp only [parseUintLoop, hd]
          constructor
          · intro h; cases h
          · intro h; exact absurd h hfalse
        · simp only [parseUintLoop, hd, ge_iff_le, hge, if_true]
          constructor
          · intro h; cases h
          · intro h; exact absurd h hfalse

theorem ParseUint_eq_ok_iff (input : String) (n : Nat) :
    ParseUint input = .ok n ↔ denotesUint64 input n := by
  unfold ParseUint denotesUint64
  by_cases he : input = ""
  · simp [he]
  · rw [if_neg he, parseUintLoop_eq_ok_iff _ _ _ (by norm_num)]
    simp [he]

theorem parseUintLoop_digit (d acc : Nat) (rest : List Char) (hd : d < 10)
    (hfit : acc * 10 + d < 2 ^ 64) :
    parseUintLoop (Char.ofNat (48 + d) :: rest) acc = parseUintLoop rest (acc * 10 + d) := by
  have hmem : Char.ofNat (48 + d) ∈ decimalDigits :=
    (mem_decimalDigits_iff _).2 (by rw [toNat_ofNat_digit d hd]; omega)
  obtain ⟨hv, -⟩ := digitValue_of_digit _ hmem
  rw [toNat_ofNat_digit d hd, Nat.add_sub_cancel_left] at hv
  simp only [parseUintLoop, hv, maxUint64]
  norm_num only at hfit ⊢
  rw [if_neg (by omega), if_neg (by omega)]
  have h10 : acc * 10 % 18446744073709551616 = acc * 10 := Nat.mod_eq_of_lt (by omega)
  have h1 : (acc * 10 + d) % 18446744073709551616 = acc * 10 + d := Nat.mod_eq_of_lt hfit
  rw [h10, h1, if_neg (by omega)]

theorem parseUintLoop_formatUintDigits (fuel n : Nat) (acc : List Char)
    (hfuel : n < 10 ^ fuel) (hn : n < 2 ^ 64) :
    parseUintLoop (formatUintDigits fuel n acc) 0 = parseUintLoop acc n := by
  induction fuel generalizing n acc with
  | zero =>
      have : n = 0 := by simpa using hfuel
      subst this
      simp [formatUintDigits]
  | succ fuel ih =>
      unfold formatUintDigits
      by_cases hlt : n < 10
      · rw [if_pos hlt, parseUintLoop_digit n 0 acc hlt (by omega)]
        simp
      · rw [if_neg hlt]
        have hdiv : n / 10 < 10 ^ fuel := by
          rw [Nat.div_lt_iff_lt_mul (by norm_num)]
          rw [pow_succ] at hfuel
          exact hfuel
        rw [ih (n / 10) _ hdiv (by omega),
          parseUintLoop_digit (n % 10) (n / 10) acc (Nat.mod_lt _ (by norm_num)) (by omega)]
        congr 1
        omega

theorem formatUintDigits_ne_nil (fuel n : Nat) (acc : List Char) (hacc : acc ≠ []) :
    formatUintDigits fuel n acc ≠ [] := by
  induction fuel generalizing n acc with
  | zero => simpa [formatUintDigits] using hacc
  | succ fuel ih =>
      unfold formatUintDigits
      split
      · simp
      · exact ih _ _ (by simp)

theorem ParseUint_FormatUint (i : Nat) (hi : i < 2 ^ 64) : ParseUint (FormatUint i) = .ok i := by
  have hne : FormatUint i ≠ "" := by
    intro h
    have hd : (FormatUint i).data = [] := by rw [h]
    simp only [FormatUint] at hd
    unfold formatUintDigits at hd
    split at hd
    · cases hd
    · exact formatUintDigits_ne_nil _ _ _ (by simp) hd
  unfold ParseUint
  rw [if_neg hne]
  simp only [FormatUint]
  rw [parseUintLoop_formatUintDigits 20 i [] (by norm_num at hi ⊢; omega) hi]
  simp [parseUintLoop]

theorem FormatUint_injective (i j : Nat) (hi : i < 2 ^ 64) (hj : j < 2 ^ 64)
    (h : FormatUint i = FormatUint j) : i = j := by
  have h1 := ParseUint_FormatUint i hi
  have h2 := ParseUint_FormatUint j hj
  rw [h, h2] at h1
  exact (Except.ok.inj h1).symm

/-! ## Facts about the state list -/

theorem fillStates_upTo (f : Nat → String) (l : List String) (k : Nat) (hk : k ≤ l.length) :
    (List.range k).foldl (fun states i => states.set i (f i)) l
      = (List.range k).map f ++ l.drop k := by
  induction k with
  | zero => simp
  | succ k ih =>
      have hlt : k < l.length := hk
      rw [List.range_succ, List.foldl_append, ih (Nat.le_of_lt hlt)]
      simp only [List.foldl_cons, List.foldl_nil, List.map_append, List.map_cons, List.map_nil]
      rw [List.set_append, if_neg (by simp), List.drop_eq_getElem_cons hlt]
      simp only [List.length_map, List.length_range, Nat.sub_self, List.set_cons_zero,
        List.append_assoc, List.singleton_append]

theorem fillStates_eq_map (nStates : Nat) :
    fillStates (List.replicate nStates "") nStates = (List.range nStates).map FormatUint := by
  unfold fillStates
  rw [fillStates_upTo FormatUint _ nStates (by simp)]
  simp

theorem fillStates_nodup (nStates : Nat) (hn : nStates ≤ 2 ^ 64) :
    (fillStates (List.replicate nStates "") nStates).Nodup := by
  rw [fillStates_eq_map]
  refine List.Nodup.map_on ?_ (List.nodup_range nStates)
  intro i hi j hj hij
  rw [List.mem_range] at hi hj
  exact FormatUint_injective i j (by omega) (by omega) hij

theorem makeStates_eq_some (maxAlloc nStates : Nat) (states : List String)
    (h : makeStates maxAlloc nStates = some states) : states = List.replicate nStates "" := by
  unfold makeStates at h
  split at h
  · exact (Option.some.inj h).symm
  · cases h

theorem promptState_eq_some (maxAlloc : Nat) (stateResult : String) (states : List String)
    (h : promptState maxAlloc stateResult = some states) :
    ∃ nStates, ParseUint stateResult = .ok nStates ∧
      states = fillStates (List.replicate nStates "") nStates := by
  unfold promptState at h
  cases hv : statesValidate stateResult with
  | error e => simp [hv] at h
  | ok u =>
      cases hp : ParseUint stateResult with
      | error e => simp [hv, hp] at h
      | ok n =>
          cases hm : makeStates maxAlloc n with
          | none => simp [hv, hp, hm] at h
          | some made =>
              simp only [hv, hp, hm, Option.some.injEq] at h
              have := makeStates_eq_some maxAlloc n made hm
              exact ⟨n, rfl, by rw [← h, this]⟩

theorem removeIdx_nodup_facts {α : Type} [DecidableEq α] (s : List α) (hnd : s.Nodup)
    (i : Nat) (hi : i < s.length) :
    removeIdx s (i : Int) = some (s.eraseIdx i)
      ∧ s.get ⟨i, hi⟩ ∉ s.eraseIdx i
      ∧ (∀ x ∈ s, x ≠ s.get ⟨i, hi⟩ → (s.eraseIdx i).count x = 1)
      ∧ (s.eraseIdx i).Sublist s
      ∧ (s.eraseIdx i).length = s.length - 1 := by
  refine ⟨removeIdx_eq_eraseIdx s i hi, not_mem_eraseIdx_of_nodup s hnd i hi, ?_,
    List.eraseIdx_sublist s i, ?_⟩
  · intro x hx hne
    have hsub : (s.eraseIdx i).Nodup := hnd.sublist (List.eraseIdx_sublist s i)
    refine List.count_eq_one_of_mem hsub ?_
    rw [← hnd.erase_getElem i hi, hnd.mem_erase_iff]
    exact ⟨by simpa [List.get_eq_getElem] using hne, hx⟩
  · have := List.length_eraseIdx_add_one hi
    omega

/-! ## Facts about the alphabet validator -/

theorem containsChars_singleton (l : List Char) (c : Char) :
    containsChars l [c] = true ↔ c ∈ l := by
  induction l with
  | nil => simp [containsChars, hasPrefixChars]
  | cons x xs ih =>
      simp only [containsChars, hasPrefixChars, Bool.and_true, Bool.or_eq_true,
        decide_eq_true_eq, ih, List.mem_cons]
      constructor
      · rintro (h | h)
        · exact Or.inl h.symm
        · exact Or.inr h
      · rintro (h | h)
        · exact Or.inl h.symm
        · exact Or.inr h

theorem utf8ByteSize_eq_zero_iff (input : String) : input.utf8ByteSize = 0 ↔ input = "" := by
  obtain ⟨l⟩ := input
  cases l with
  | nil => simp [String.utf8ByteSize, String.utf8ByteSize.go]
  | cons c cs =>
      have := Char.utf8Size_pos c
      simp [String.utf8ByteSize, String.utf8ByteSize.go, String.ext_iff]
      omega

theorem tapeValidate_eq_ok_iff (input : String) :
    tapeValidate input = .ok () ↔ ¬ (input = "" ∨ ' ' ∈ input.data ∨ '_' ∈ input.data) := by
  have hsp : stringsContains input " " = true ↔ ' ' ∈ input.data := by
    simpa [stringsContains] using containsChars_singleton input.data ' '
  have hus : stringsContains input "_" = true ↔ '_' ∈ input.data := by
    simpa [stringsContains] using containsChars_singleton input.data '_'
  unfold tapeValidate
  by_cases h0 : input.utf8ByteSize = 0
  · have := (utf8ByteSize_eq_zero_iff input).1 h0
    rw [if_pos h0]
    simp [this]
  · have hne : ¬ input = "" := fun h => h0 ((utf8ByteSize_eq_zero_iff input).2 h)
    rw [if_neg h0]
    by_cases h1 : stringsContains input " " = true
    · simp [h1, hsp.1 h1]
    · have h1' : ' ' ∉ input.data := fun h => h1 (hsp.2 h)
      rw [if_neg h1]
      by_cases h2 : stringsContains input "_" = true
      · simp [h2, hus.1 h2]
      · have h2' : '_' ∉ input.data := fun h => h2 (hus.2 h)
        rw [if_neg h2]
        simp [hne, h1', h2']

/-! ## Inserting a transition -/

/-- C1: when the table already holds a transition of state `fromState` on the symbol, the
call of `insertTransition` returns the table as it was, for any target, written symbol and
direction: no key is added and no transition list, the existing one included, is touched. -/
theorem insertTransition_duplicate_unchanged (fromToMap : FromToMap)
    (fromState toState onSym write direction : String) (ts : List Transition)
    (hget : mapGet fromToMap fromState = some ts) (hdup : ∃ tr ∈ ts, tr.On = onSym) :
    insertTransition fromToMap fromState toState onSym write direction = fromToMap := by
  have hhas : hasTransitionOn ts onSym = true := (hasTransitionOn_iff ts onSym).2 hdup
  simp [insertTransition, hget, mapIndex, hhas]

/-- C1 at a concrete table: a second transition of state 0 on symbol 1 is not stored. -/
theorem insertTransition_duplicate_unchanged_witness :
    insertTransition [("0", [⟨["1", "0", "R"], "1"⟩])] "0" "2" "1" "1" "L"
      = [("0", [⟨["1", "0", "R"], "1"⟩])] :=
  insertTransition_duplicate_unchanged [("0", [⟨["1", "0", "R"], "1"⟩])] "0" "2" "1" "1" "L"
    [⟨["1", "0", "R"], "1"⟩] (by decide) ⟨⟨["1", "0", "R"], "1"⟩, by decide, by decide⟩

/-- C10: when state `fromState` has no transition on the symbol, after `insertTransition`
its list is the previous list (the empty list when the state had no entry) followed by the
one new transition, the keys are the old keys, with `fromState` added last when it had no entry,, and every other state keeps
its list. -/
theorem insertTransition_appends (fromToMap : FromToMap)
    (fromState toState onSym write direction : String)
    (hnew : ∀ tr ∈ mapIndex fromToMap fromState, tr.On ≠ onSym) :
    mapGet (insertTransition fromToMap fromState toState onSym write direction) fromState
        = some (mapIndex fromToMap fromState
            ++ [{ Result := [toState, write, direction], On := onSym }])
      ∧ (∀ k, k ≠ fromState →
          mapGet (insertTransition fromToMap fromState toState onSym write direction) k
            = mapGet fromToMap k)
      ∧ mapKeys (insertTransition fromToMap fromState toState onSym write direction)
          = (if fromState ∈ mapKeys fromToMap then mapKeys fromToMap
             else mapKeys fromToMap ++ [fromState]) :=
  insertTransition_fresh fromToMap fromState toState onSym write direction hnew

/-- C10 at a concrete table: a transition of state 0 on symbol 1 goes after the one on 0. -/
theorem insertTransition_appends_witness :
    mapGet (insertTransition [("0", [⟨["1", "0", "R"], "0"⟩])] "0" "2" "1" "1" "L") "0"
        = some (mapIndex [("0", [⟨["1", "0", "R"], "0"⟩])] "0"
            ++ [{ Result := ["2", "1", "L"], On := "1" }])
      ∧ (∀ k, k ≠ "0" →
          mapGet (insertTransition [("0", [⟨["1", "0", "R"], "0"⟩])] "0" "2" "1" "1" "L") k
            = mapGet [("0", [⟨["1", "0", "R"], "0"⟩])] k)
      ∧ mapKeys (insertTransition [("0", [⟨["1", "0", "R"], "0"⟩])] "0" "2" "1" "1" "L")
          = (if "0" ∈ mapKeys [("0", [⟨["1", "0", "R"], "0"⟩])]
             then mapKeys [("0", [⟨["1", "0", "R"], "0"⟩])]
             else mapKeys [("0", [⟨["1", "0", "R"], "0"⟩])] ++ ["0"]) :=
  insertTransition_appends [("0", [⟨["1", "0", "R"], "0"⟩])] "0" "2" "1" "1" "L" (by decide)

/-! ## Removing a transition -/

/-- C3: for a state `fromState` whose list is `ts` and a valid index `i`, the position of the
transition on symbol `onSym`, the removal step of `promptRemove` returns a table in which the
list of `fromState` is `ts` without its `i`-th element, the rest in the original order, the
keys and the lists of all other states are as before, and, when `ts` had no two transitions
on one symbol, no transition on `onSym` is left for `fromState`. -/
theorem promptRemove_deletes (fromToMap : FromToMap) (fromState onSym : String)
    (ts : List Transition) (i : Nat) (hget : mapGet fromToMap fromState = some ts)
    (hi : i < ts.length) (hon : (ts.get ⟨i, hi⟩).On = onSym) :
    ∃ next, promptRemove fromToMap fromState (i : Int) = some next
      ∧ mapGet next fromState = some (ts.eraseIdx i)
      ∧ (ts.eraseIdx i).Sublist ts
      ∧ (ts.eraseIdx i).length + 1 = ts.length
      ∧ (∀ k, k ≠ fromState → mapGet next k = mapGet fromToMap k)
      ∧ mapKeys next = mapKeys fromToMap
      ∧ ((ts.map Transition.On).Nodup → ∀ tr ∈ ts.eraseIdx i, tr.On ≠ onSym) := by
  have hidx : mapIndex fromToMap fromState = ts := by simp [mapIndex, hget]
  have hin : fromState ∈ mapKeys fromToMap := (mapGet_isSome_iff _ _).1 ⟨ts, hget⟩
  refine ⟨mapSet fromToMap fromState (ts.eraseIdx i), ?_, mapGet_mapSet_same _ _ _,
    List.eraseIdx_sublist ts i, List.length_eraseIdx_add_one hi, ?_,
    mapKeys_mapSet_of_mem _ _ _ hin, ?_⟩
  · simp [promptRemove, hidx, removeIdx_eq_eraseIdx ts i hi]
  · intro k hk
    exact mapGet_mapSet_other _ _ _ _ hk
  · intro hnd tr htr
    rw [← hon]
    exact on_ne_of_mem_eraseIdx ts i hi hnd tr htr

/-- C3 on the table holding the transitions (0,0) and (0,1): removing the one on symbol 0
leaves state 0 with exactly the transition on symbol 1. -/
theorem promptRemove_deletes_witness :
    (∃ next, promptRemove [("0", [sampleOnZero, sampleOnOne])] "0" ((0 : Nat) : Int) = some next
      ∧ mapGet next "0" = some ([sampleOnZero, sampleOnOne].eraseIdx 0)
      ∧ ([sampleOnZero, sampleOnOne].eraseIdx 0).Sublist [sampleOnZero, sampleOnOne]
      ∧ ([sampleOnZero, sampleOnOne].eraseIdx 0).length + 1 = [sampleOnZero, sampleOnOne].length
      ∧ (∀ k, k ≠ "0" → mapGet next k = mapGet [("0", [sampleOnZero, sampleOnOne])] k)
      ∧ mapKeys next = mapKeys [("0", [sampleOnZero, sampleOnOne])]
      ∧ (([sampleOnZero, sampleOnOne].map Transition.On).Nodup →
          ∀ tr ∈ [sampleOnZero, sampleOnOne].eraseIdx 0, tr.On ≠ "0"))
    ∧ runLoop [] [.add "0" "1" "0" "0" "R", .add "0" "1" "1" "1" "R", .remove "0" 0]
        = some [("0", [sampleOnOne])] :=
  ⟨promptRemove_deletes [("0", [sampleOnZero, sampleOnOne])] "0" "0"
      [sampleOnZero, sampleOnOne] 0 (by decide) (by decide) (by decide),
    by decide⟩

/-! ## The uniqueness invariant -/

/-- C2: in every table the loop of `main` reaches from the empty map, by any sequence of
`insertTransition` calls and removals at a candidate state and a valid index, the map has
one entry per state, no list holds two transitions on one symbol, and so no two transitions
of the table share their `(fromState, onSymbol)` pair. -/
theorem reachable_unique_transition_keys (fromToMap : FromToMap) (h : Reachable fromToMap) :
    (mapKeys fromToMap).Nodup
      ∧ (∀ k ts, mapGet fromToMap k = some ts → (ts.map Transition.On).Nodup)
      ∧ (transitionKeys fromToMap).Nodup := by
  obtain ⟨choices, hrun⟩ := h
  have hempty : TableInv [] := ⟨by simp [mapKeys], by intro k ts hk; simp [mapGet] at hk⟩
  have hinv := tableInv_runLoop choices [] fromToMap hempty hrun
  exact ⟨hinv.1, hinv.2, transitionKeys_nodup fromToMap hinv⟩

/-- C2 on the table reached by adding (0,0), adding (0,1), a rejected second (0,1) and
removing (0,0). -/
theorem reachable_unique_transition_keys_witness :
    (mapKeys [("0", [sampleOnOne])]).Nodup
      ∧ (∀ k ts, mapGet [("0", [sampleOnOne])] k = some ts → (ts.map Transition.On).Nodup)
      ∧ (transitionKeys [("0", [sampleOnOne])]).Nodup :=
  reachable_unique_transition_keys [("0", [sampleOnOne])]
    ⟨[.add "0" "1" "0" "0" "R", .add "0" "1" "1" "1" "R", .add "0" "2" "1" "0" "L",
      .remove "0" 0], by decide⟩

/-! ## The validators -/

/-- C8: `tapeValidate` rejects an input exactly when it is empty, holds a space or holds the
blank character `_`; for an accepted input the alphabet `promptTape` returns is the input's
characters, one symbol each, in input order, and none of the symbols is a space or `_`. -/
theorem tapeValidate_rejects_iff (input : String) :
    (tapeValidate input ≠ .ok () ↔ input = "" ∨ ' ' ∈ input.data ∨ '_' ∈ input.data)
      ∧ (tapeValidate input = .ok () →
          ∃ alphabet, promptTape input = some alphabet
            ∧ alphabet = input.data.map String.singleton
            ∧ alphabet.length = input.length
            ∧ ∀ sym ∈ alphabet, sym ≠ " " ∧ sym ≠ "_" ∧ sym.length = 1) := by
  constructor
  · rw [Ne, tapeValidate_eq_ok_iff, not_not]
  · intro hok
    have hno := (tapeValidate_eq_ok_iff input).1 hok
    refine ⟨input.data.map String.singleton, by simp [promptTape, hok, stringsSplitEmpty],
      rfl, by rw [List.length_map]; rfl, ?_⟩
    intro sym hsym
    obtain ⟨c, hc, rfl⟩ := List.mem_map.1 hsym
    refine ⟨?_, ?_, rfl⟩
    · intro h
      have : c = ' ' := by
        have := congrArg String.data h
        simpa [String.singleton] using this
      exact hno (Or.inr (Or.inl (this ▸ hc)))
    · intro h
      have : c = '_' := by
        have := congrArg String.data h
        simpa [String.singleton] using this
      exact hno (Or.inr (Or.inr (this ▸ hc)))

/-- C8 on the inputs of the specification: `01` gives the alphabet 0, 1. -/
theorem tapeValidate_rejects_iff_witness :
    (∃ alphabet, promptTape "01" = some alphabet
        ∧ alphabet = "01".data.map String.singleton
        ∧ alphabet.length = "01".length
        ∧ ∀ sym ∈ alphabet, sym ≠ " " ∧ sym ≠ "_" ∧ sym.length = 1)
      ∧ promptTape "01" = some ["0", "1"]
      ∧ promptTape "a b" = none ∧ promptTape "a_b" = none ∧ promptTape "" = none :=
  ⟨(tapeValidate_rejects_iff "01").2 (by decide), by decide, by decide, by decide, by decide⟩

/-- C9: `statesValidate` accepts an input exactly when it denotes an unsigned decimal 64-bit
integer that is at least 2; an input denoting 0 or 1 fails with the message about 2, and an
input denoting no such integer (empty, signed, non-numeric, too large) fails with the message
about an invalid integer. -/
theorem statesValidate_accepts_iff (input : String) :
    (statesValidate input = .ok () ↔ ∃ n, denotesUint64 input n ∧ 2 ≤ n)
      ∧ (∀ n, denotesUint64 input n → n ≤ 1 →
          statesValidate input = .error "Input must be >=2.")
      ∧ ((¬ ∃ n, denotesUint64 input n) →
          statesValidate input = .error "Invalid positive integer.") := by
  refine ⟨?_, ?_, ?_⟩
  · constructor
    · intro h
      unfold statesValidate at h
      cases hp : ParseUint input with
      | error e => simp [hp] at h
      | ok n =>
          simp only [hp] at h
          refine ⟨n, (ParseUint_eq_ok_iff input n).1 hp, ?_⟩
          by_contra hlt
          rw [if_pos (by omega)] at h
          cases h
    · rintro ⟨n, hden, hge⟩
      have hp := (ParseUint_eq_ok_iff input n).2 hden
      unfold statesValidate
      simp only [hp]
      rw [if_neg (by omega)]
  · intro n hden hle
    have hp := (ParseUint_eq_ok_iff input n).2 hden
    unfold statesValidate
    simp only [hp]
    rw [if_pos hle]
  · intro hnone
    unfold statesValidate
    cases hp : ParseUint input with
    | error e => rfl
    | ok n => exact absurd ⟨n, (ParseUint_eq_ok_iff input n).1 hp⟩ hnone

/-- C9 on concrete inputs: 1 is too small, and 0, a signed, a non-numeric, an empty and a
65-bit input fail while 2 passes. -/
theorem statesValidate_accepts_iff_witness :
    statesValidate "1" = .error "Input must be >=2."
      ∧ statesValidate "0" = .error "Input must be >=2."
      ∧ statesValidate "-3" = .error "Invalid positive integer."
      ∧ statesValidate "x" = .error "Invalid positive integer."
      ∧ statesValidate "" = .error "Invalid positive integer."
      ∧ statesValidate "18446744073709551616" = .error "Invalid positive integer."
      ∧ statesValidate "2" = .ok () :=
  ⟨(statesValidate_accepts_iff "1").2.1 1
      ⟨by decide, by decide, by decide, by norm_num⟩ (by decide),
    by decide, by decide, by decide, by decide, by decide, by decide⟩

/-! ## The state list and the reject candidates -/

/-- C6: for the state list `promptState` returns and the index and text `promptAccept`
returns, the candidates `promptReject` offers, `removeIdx states acceptIdx`, do not hold the
accept state, hold every other state exactly once and in the original order, and are one
fewer than the states; every pick among them is returned and differs from the accept
state. -/
theorem promptReject_excludes_accept (maxAlloc : Nat) (stateResult : String)
    (states : List String) (pick : Nat) (acceptIdx : Int) (acceptResult : String)
    (hstates : promptState maxAlloc stateResult = some states)
    (hacc : promptAccept states pick = some (acceptIdx, acceptResult)) :
    ∃ cands, removeIdx states acceptIdx = some cands
      ∧ acceptResult ∉ cands
      ∧ (∀ x ∈ states, x ≠ acceptResult → cands.count x = 1)
      ∧ cands.Sublist states
      ∧ cands.length = states.length - 1
      ∧ (∀ j, j < cands.length →
          ∃ rejectResult, promptReject states acceptIdx j = some rejectResult)
      ∧ (∀ j rejectResult, promptReject states acceptIdx j = some rejectResult →
          rejectResult ≠ acceptResult) := by
  have hnd : states.Nodup := by
    obtain ⟨n, hp, hs⟩ := promptState_eq_some maxAlloc stateResult states hstates
    have hlt : n < 2 ^ 64 := ((ParseUint_eq_ok_iff _ _).1 hp).2.2.2
    exact hs ▸ fillStates_nodup n (by omega)
  unfold promptAccept at hacc
  cases hget : states[pick]? with
  | none => simp [hget] at hacc
  | some a =>
      simp only [hget, Option.some.injEq, Prod.mk.injEq] at hacc
      obtain ⟨hidx, hres⟩ := hacc
      subst hidx
      subst hres
      obtain ⟨hlt, hval⟩ := List.getElem?_eq_some_iff.1 hget
      have hval' : states.get ⟨pick, hlt⟩ = a := by simpa [List.get_eq_getElem] using hval
      obtain ⟨hrem, hnot, hcount, hsub, hlen⟩ := removeIdx_nodup_facts states hnd pick hlt
      rw [hval'] at hnot hcount
      refine ⟨states.eraseIdx pick, hrem, hnot, hcount, hsub, hlen, ?_, ?_⟩
      · intro j hj
        refine ⟨(states.eraseIdx pick)[j], ?_⟩
        simp [promptReject, hrem, List.getElem?_eq_getElem hj]
      · intro j rej hrej
        simp only [promptReject, hrem] at hrej
        intro heq
        exact hnot (heq ▸ List.getElem?_mem hrej)

/-- C6 on three states with accept state 1: the candidates are 0 and 2. -/
theorem promptReject_excludes_accept_witness :
    (∃ cands, removeIdx ["0", "1", "2"] 1 = some cands
      ∧ "1" ∉ cands
      ∧ (∀ x ∈ ["0", "1", "2"], x ≠ "1" → cands.count x = 1)
      ∧ cands.Sublist ["0", "1", "2"]
      ∧ cands.length = ["0", "1", "2"].length - 1
      ∧ (∀ j, j < cands.length →
          ∃ rejectResult, promptReject ["0", "1", "2"] 1 j = some rejectResult)
      ∧ (∀ j rejectResult, promptReject ["0", "1", "2"] 1 j = some rejectResult →
          rejectResult ≠ "1"))
      ∧ removeIdx ["0", "1", "2"] 1 = some ["0", "2"] :=
  ⟨promptReject_excludes_accept maxAllocLinuxAmd64 "3" ["0", "1", "2"] 1 1 "1"
      (by decide) (by decide), by decide⟩

/-! ## A state whose transitions were all removed -/

/-- C5: the loop reaches, by adding one transition of state 0 and removing it, a table in
which state 0 is still a key with an empty list; on that table the menu of `promptOptions`
holds the option to remove a transition although no state has a transition, and the only
candidate `promptRemove` offers is state 0, from which no index can be removed. -/
theorem promptOptions_offers_remove_on_emptied_table :
    runLoop [] [.add "0" "1" "a" "a" "R", .remove "0" 0] = some [("0", [])]
      ∧ "Remove a transition." ∈ promptOptionsMenu [("0", [])]
      ∧ (∀ k ∈ mapKeys [("0", [])], mapIndex [("0", [])] k = [])
      ∧ removeCandidates [("0", [])] = ["0"]
      ∧ (∀ idx, promptRemove [("0", [])] "0" idx = none)
      ∧ "Remove a transition." ∉ promptOptionsMenu [] := by
  refine ⟨by decide, by decide, by decide, by decide, ?_, by decide⟩
  intro idx
  have hno : ¬ (0 ≤ idx ∧ idx < 0) := by omega
  simp [promptRemove, mapIndex, mapGet, removeIdx, hno]

/-- C4: for the machine with start 0, accept 1, reject 2, one transition (0,a) to (1,a,R)
gives a delta of one entry, from state 0, with result 1, a, R; after that transition is
removed again the delta still has an entry for state 0, with no transition in it. -/
theorem buildDelta_keeps_emptied_state :
    (buildDelta ⟨"0", "1", "2", []⟩ (insertTransition [] "0" "1" "a" "a" "R")).Delta
        = [⟨"0", [⟨["1", "a", "R"], "a"⟩]⟩]
      ∧ runLoop [] [.add "0" "1" "a" "a" "R", .remove "0" 0] = some [("0", [])]
      ∧ (buildDelta ⟨"0", "1", "2", []⟩ [("0", [])]).Delta = [⟨"0", []⟩] := by
  decide

end TuringCli
